import Mathlib

/-
Verification of the in-image text replacement engine of
src/app/image_replacer.py (class ImageReplacer) against its specification.

Modelling conventions:
* Python strings are lists of characters (List Char).
* Pixel coordinates are integers (ℤ); normalized box coordinates are exact
  rationals (ℚ) — every Python float is a rational, so ℚ is a faithful
  superset of the values that can occur.
* Python int(x) on the non-negative values appearing here is ⌊x⌋; Python //
  is Int.fdiv (floor division).  The float literals 1.1, 1.2 and 0.35 enter
  only in products with integers whose exact values are far enough from the
  truncation boundaries that int(n * c) agrees with the exact rational
  computation (e.g. int(n * 1.1) = 11 * n / 10 rounded down); the rational
  forms are used throughout.
* PIL font objects are not representable; text measurement (draw.textbbox)
  and per-size line height (font.getmetrics) are abstract parameters
  `measure : ℕ → List Char → ℕ` (font size, string ↦ pixel width) and
  `lineH : ℕ → ℕ`.
* Rasters are total functions from pixel coordinates to RGB colours;
  PIL's in-place mutation is made explicit with a heap of rasters indexed
  by ℕ references, so that "the original image is never mutated" is a real
  statement about the heap.
-/

/-- Characters treated as whitespace by the str.split() call in _wrap_text
(line 494).  Python str.split splits on ASCII whitespace and a few Unicode
spaces; the ASCII set is modelled. -/
def isPySpace (c : Char) : Bool :=
  c == ' ' || c == '\t' || c == '\n' || c == '\r' || c == '\x0b' || c == '\x0c'

/-- Words are fragments of Python strings. -/
abbrev Word := List Char

/-- Python text.split() (line 494): splits on runs of whitespace, drops empty
fragments, so the result never contains an empty word. -/
def pySplit : List Char → List Word
  | [] => []
  | c :: cs =>
    if isPySpace c then pySplit cs
    else
      match pySplit cs with
      | [] => [[c]]
      | w :: ws =>
        match cs with
        | [] => [[c]]
        | d :: _ => if isPySpace d then [c] :: w :: ws else (c :: w) :: ws

/-- Python " ".join(words) (lines 500, 513, 529). -/
def joinSpace : List Word → List Char
  | [] => []
  | [w] => w
  | w :: ws => w ++ ' ' :: joinSpace ws

/-- One iteration of the word loop of _wrap_text (lines 498-514): the state is
(lines emitted so far, current_line); a word is appended to current_line when
the candidate line fits, otherwise current_line (if non-empty) is emitted and
a fresh line is started.  The second measurement of the lone word after a
break (lines 516-525) only produces a log message and is not modelled. -/
def wrapStep (fitsLine : List Word → Bool) (st : List (List Word) × List Word) (w : Word) :
    List (List Word) × List Word :=
  if fitsLine (st.2 ++ [w]) then (st.1, st.2 ++ [w])
  else if st.2 = [] then (st.1, [w]) else (st.1 ++ [st.2], [w])

/-- The word-grouping performed by the loop of _wrap_text (lines 495-529),
including the final flush of current_line (lines 527-529). -/
def wrapGroups (fitsLine : List Word → Bool) (words : List Word) : List (List Word) :=
  let st := words.foldl (wrapStep fitsLine) ([], [])
  if st.2 = [] then st.1 else st.1 ++ [st.2]

/-- _wrap_text (lines 472-535).  measureF models draw.textbbox width
measurement with the font fixed; line 508 compares the measured width of
" ".join(current_line + [word]) with max_width.  When no line was produced
(text without words) the original text is returned as the only line
(lines 531-533). -/
def wrap_text (measureF : List Char → Nat) (maxWidth : Nat) (text : List Char) :
    List (List Char) :=
  let words := pySplit text
  let groups := wrapGroups (fun g => decide (measureF (joinSpace g) ≤ maxWidth)) words
  let lines := groups.map joinSpace
  if lines = [] then [text] else lines

/-- Recursive form of the line-growing part of the _wrap_text loop: starting
from current_line cur, keep appending words while the candidate line fits. -/
def growLine (f : List Word → Bool) (cur : List Word) : List Word → List Word × List Word
  | [] => (cur, [])
  | w :: ws => if f (cur ++ [w]) then growLine f (cur ++ [w]) ws else (cur, w :: ws)

/-- Recursive (per-line) form of wrapGroups: each line is grown greedily from
its first word; a new line always receives the pending word unconditionally,
exactly as current_line = [word] at line 514. -/
def wrapSplit (f : List Word → Bool) : List Word → List (List Word)
  | [] => []
  | w :: ws => (growLine f [w] ws).1 :: wrapSplit f (growLine f [w] ws).2
termination_by l => l.length
decreasing_by
  have hlen : ∀ (ws2 cur : List Word), (growLine f cur ws2).2.length ≤ ws2.length := by
    intro ws2
    induction ws2 with
    | nil => intro _; simp [growLine]
    | cons v vs ih =>
      intro cur
      simp only [growLine]
      split
      · exact (ih (cur ++ [v])).trans (Nat.le_succ _)
      · simp
  exact Nat.lt_succ_of_le (hlen ws [w])

/-- Default of TEXT_ERASE_PADDING in config/settings.py. -/
def TEXT_ERASE_PADDING : ℤ := 6

/-- Default of BBOX_PADDING in config/settings.py. -/
def BBOX_PADDING : ℤ := 5

/-- Default of RENDER_BOX_PADDING_PCT (0.35) in config/settings.py. -/
def RENDER_BOX_PADDING_PCT : ℚ := 35 / 100

/-- Default of MIN_FONT_SIZE in config/settings.py. -/
def MIN_FONT_SIZE : ℕ := 8

/-- Default of MAX_FONT_SIZE in config/settings.py. -/
def MAX_FONT_SIZE : ℕ := 66

/-- Default of TEXT_PADDING in config/settings.py. -/
def TEXT_PADDING : ℤ := 0

/-- Default of TEXT_INSET in config/settings.py. -/
def TEXT_INSET : ℤ := 0

/-- Normalized bounding box {x, y, width, height} as supplied by OCR. -/
structure NormBox where
  x : ℚ
  y : ℚ
  w : ℚ
  h : ℚ
deriving DecidableEq

/-- Pixel rectangle (x1, y1, x2, y2). -/
structure Rect where
  x1 : ℤ
  y1 : ℤ
  x2 : ℤ
  y2 : ℤ
deriving DecidableEq

/-- _normalize_to_pixels (lines 160-221).  The box values are already numbers
(the float() conversions succeed; the ValueError/TypeError branch guards
non-numeric input, outside this model); int() of the non-negative products is
the floor. -/
def normalize_to_pixels (b : NormBox) (imgW imgH : ℕ) (pad : Bool) (padPx : Option ℤ) :
    Option Rect :=
  if 0 ≤ b.x ∧ b.x ≤ 1 ∧ 0 ≤ b.y ∧ b.y ≤ 1 ∧ 0 < b.w ∧ b.w ≤ 1 ∧ 0 < b.h ∧ b.h ≤ 1 then
    let x1 : ℤ := ⌊b.x * imgW⌋
    let y1 : ℤ := ⌊b.y * imgH⌋
    let x2 : ℤ := ⌊(b.x + b.w) * imgW⌋
    let y2 : ℤ := ⌊(b.y + b.h) * imgH⌋
    if pad then
      let padVal : ℤ := match padPx with
        | some p => max 0 p
        | none => TEXT_ERASE_PADDING
      some ⟨max 0 (x1 - padVal), max 0 (y1 - padVal),
            min (imgW : ℤ) (x2 + padVal), min (imgH : ℤ) (y2 + padVal)⟩
    else
      some ⟨x1, y1, x2, y2⟩
  else
    none

/-- _expand_bbox (lines 223-248).  int(w * pct) with w ≥ 1 and pct ≥ 0 is the
floor of the exact rational product. -/
def expand_bbox (bbox : Rect) (imgW imgH : ℕ) (pct : ℚ) (minPad : ℤ) : Rect :=
  let w : ℤ := max 1 (bbox.x2 - bbox.x1)
  let h : ℤ := max 1 (bbox.y2 - bbox.y1)
  let padX : ℤ := max minPad ⌊(w : ℚ) * pct⌋
  let padY : ℤ := max minPad ⌊(h : ℚ) * pct⌋
  let nx1 := max 0 (bbox.x1 - padX)
  let ny1 := max 0 (bbox.y1 - padY)
  let nx2 := min (imgW : ℤ) (bbox.x2 + padX)
  let ny2 := min (imgH : ℤ) (bbox.y2 + padY)
  if nx2 ≤ nx1 ∨ ny2 ≤ ny1 then bbox else ⟨nx1, ny1, nx2, ny2⟩

/-- The render_bbox_px local of replace_text (lines 112-131): when a bubble
box is present and normalizes, expand it and take it if its area reaches
int(text_area * 1.1); with no bubble box, expand the text rectangle instead
(lines 128-131).  The source computes this value and then never uses it — see
chosen_rects. -/
def render_bbox_px_of (textBboxPx : Rect) (bubble : Option NormBox) (imgW imgH : ℕ) : Rect :=
  match bubble with
  | some bn =>
    match normalize_to_pixels bn imgW imgH true (some BBOX_PADDING) with
    | some bubblePx =>
      let expanded := expand_bbox bubblePx imgW imgH RENDER_BOX_PADDING_PCT BBOX_PADDING
      let textArea := (textBboxPx.x2 - textBboxPx.x1) * (textBboxPx.y2 - textBboxPx.y1)
      let bubbleArea := (expanded.x2 - expanded.x1) * (expanded.y2 - expanded.y1)
      if (textArea * 11).fdiv 10 ≤ bubbleArea then expanded else textBboxPx
    | none => textBboxPx
  | none => expand_bbox textBboxPx imgW imgH RENDER_BOX_PADDING_PCT BBOX_PADDING

/-- Lines 101-137 of replace_text for one extraction: the text box is
normalized with TEXT_ERASE_PADDING; the triple returned is (render_bbox_px,
the rectangle passed to _erase_text_simple at line 133, the rectangle passed
to _render_text at line 137).  The source passes text_bbox_px to both calls;
render_bbox_px (lines 112-131) is never read afterwards. -/
def chosen_rects (bb : NormBox) (bubble : Option NormBox) (imgW imgH : ℕ) :
    Option (Rect × Rect × Rect) :=
  match normalize_to_pixels bb imgW imgH true (some TEXT_ERASE_PADDING) with
  | none => none
  | some textPx => some (render_bbox_px_of textPx bubble imgW imgH, textPx, textPx)

/-- RGB colour triple. -/
abbrev Color := ℕ × ℕ × ℕ

/-- Default of BACKGROUND_FILL_COLOR (255,255,255) in config/settings.py. -/
def BACKGROUND_FILL_COLOR : Color := (255, 255, 255)

/-- A raster is a total map from pixel coordinates to colours; PIL images are
finite but every operation modelled here is pointwise, so the unbounded
carrier is harmless. -/
abbrev Raster := ℤ × ℤ → Color

/-- _erase_text_simple (lines 250-260): a degenerate rectangle (x2 ≤ x1 or
y2 ≤ y1) is a silent no-op; otherwise draw.rectangle fills the box, both
corners included as PIL does, with BACKGROUND_FILL_COLOR. -/
def erase_text_simple (img : Raster) (bbox : Rect) : Raster :=
  if bbox.x2 ≤ bbox.x1 ∨ bbox.y2 ≤ bbox.y1 then img
  else fun p =>
    if bbox.x1 ≤ p.1 ∧ p.1 ≤ bbox.x2 ∧ bbox.y1 ≤ p.2 ∧ p.2 ≤ bbox.y2 then
      BACKGROUND_FILL_COLOR
    else img p

/-- The per-line horizontal position computed at lines 452-453 of
_render_text: x_pos = max(x1_in, x1_in + (inner_width - line_width) // 2)
followed by x_pos = min(x_pos, x2_in - line_width). -/
def render_x_pos (x1In x2In innerWidth lineWidth : ℤ) : ℤ :=
  min (max x1In (x1In + (innerWidth - lineWidth).fdiv 2)) (x2In - lineWidth)

/-- The per-candidate acceptance test of _fit_text (lines 596-611): wrap the
text at the candidate size, require every wrapped line's measured width to be
at most max_width (lines 602-607) and the total height
line_count * line_height to be at most int(max_height * 1.2) (line 611). -/
def fits_size (measure : ℕ → List Char → ℕ) (lineH : ℕ → ℕ) (maxWidth maxHeight : ℕ)
    (text : List Char) (size : ℕ) : Bool :=
  let lines := wrap_text (measure size) maxWidth text
  lines.all (fun l => decide (measure size l ≤ maxWidth)) &&
    decide (lines.length * lineH size ≤ maxHeight * 6 / 5)

/-- The binary-search loop of _fit_text (lines 585-622), reduced to the best
accepted size; the best_font / best_lines / best_line_height /
best_total_height locals carried by the source are always the values at the
recorded size, so fit_text recomputes them from the returned size.  When
mid = 0 the Python loop would set high = -1 and exit with best unchanged;
returning best directly models that exit (sizes here are always ≥
MIN_FONT_SIZE ≥ 1, so the guard is unreachable from fit_text). -/
def searchLoop (accept : ℕ → Bool) (low high best : ℕ) : ℕ :=
  if low ≤ high then
    let mid := (low + high) / 2
    if accept mid then searchLoop accept (mid + 1) high mid
    else if mid = 0 then best
    else searchLoop accept low (mid - 1) best
  else best
termination_by high + 1 - low
decreasing_by
  · omega
  · omega

/-- _fit_text (lines 563-624): binary search for the best size starting from
the MIN_FONT_SIZE fallback, returning size, wrapped lines, line height and
total height (the font object itself is not representable and is omitted). -/
def fit_text (measure : ℕ → List Char → ℕ) (lineH : ℕ → ℕ) (text : List Char)
    (maxWidth maxHeight : ℕ) : ℕ × List (List Char) × ℕ × ℕ :=
  let best := searchLoop (fits_size measure lineH maxWidth maxHeight text)
    MIN_FONT_SIZE MAX_FONT_SIZE MIN_FONT_SIZE
  (best, wrap_text (measure best) maxWidth text, lineH best,
    (wrap_text (measure best) maxWidth text).length * lineH best)

/-- Default of LINE_SPACING (1.1) in config/settings.py, as the exact pair of
the int(x * 1.1) computation: advance by (x * 11) // 10. -/
def lineSpacingAdvance (lh : ℤ) : ℤ := (lh * 11).fdiv 10

/-- A heap of rasters indexed by references, making PIL's in-place image
mutation explicit: replace_text works on a fresh reference holding a copy of
the original. -/
abbrev Heap := ℕ → Raster

/-- One extraction dict (lines 85-99): boundingBox none models a missing or
empty bounding_box dict, english [] a missing or empty translation (both
falsy in Python); bubbleBox is bubble_box or speech_bubble_box. -/
structure Extraction where
  japanese : List Char
  english : List Char
  boundingBox : Option NormBox
  bubbleBox : Option NormBox
  bold : Bool
  italic : Bool
deriving DecidableEq

/-- The abstract pieces PIL supplies to the replacer: drawLine models
draw.text painting one line of glyphs at a position onto a raster;
fontMissing models _load_font returning None after every fallback failed
(lines 626-679). -/
structure RenderCtx where
  measure : ℕ → List Char → ℕ
  lineH : ℕ → ℕ
  drawLine : Raster → ℤ → ℤ → List Char → ℕ → Raster
  fontMissing : Bool

/-- The line-drawing loop of _render_text (lines 437-462): all-whitespace
lines only advance the y cursor by line_height (lines 439-442); other lines
are measured, clamped horizontally (render_x_pos, lines 452-453) and painted;
y advances by int(line_height * LINE_SPACING) between lines and by plain
line_height after the last (lines 458-462). -/
def drawLoop (ctx : RenderCtx) (fontSize : ℕ) (lineHeight x1In x2In innerWidth : ℤ) :
    Raster → ℤ → List (List Char) → Raster
  | img, _, [] => img
  | img, curY, line :: rest =>
    if line.all (fun c => isPySpace c) then
      drawLoop ctx fontSize lineHeight x1In x2In innerWidth img (curY + lineHeight) rest
    else
      let lineWidth := (ctx.measure fontSize line : ℤ)
      let xPos := render_x_pos x1In x2In innerWidth lineWidth
      let img2 := ctx.drawLine img xPos curY line fontSize
      let adv := if rest = [] then lineHeight else lineSpacingAdvance lineHeight
      drawLoop ctx fontSize lineHeight x1In x2In innerWidth img2 (curY + adv) rest

/-- _render_text (lines 365-470) on the working raster: returns the updated
raster and the success flag.  TEXT_PADDING and TEXT_INSET keep their default
0.  Inner width and height are clamped to at least 1 (lines 411-412); the
block is centered vertically (line 433).  The try/except around drawing
(lines 436-470) converts a PIL exception into failure; the pure model has no
exceptions, so the loop always completes and returns success. -/
def render_text (ctx : RenderCtx) (img : Raster) (text : List Char) (bbox : Rect) :
    Raster × Bool :=
  if text = [] then (img, false)
  else
    let x1 := bbox.x1 + TEXT_PADDING
    let y1 := bbox.y1 + TEXT_PADDING
    let x2 := bbox.x2 - TEXT_PADDING
    let y2 := bbox.y2 - TEXT_PADDING
    if x2 - x1 ≤ 0 ∨ y2 - y1 ≤ 0 then (img, false)
    else
      let inset := max 0 TEXT_INSET
      let x1In := min x2 (x1 + inset)
      let y1In := min y2 (y1 + inset)
      let x2In := max x1In (x2 - inset)
      let y2In := max y1In (y2 - inset)
      let innerWidth := max 1 (x2In - x1In)
      let innerHeight := max 1 (y2In - y1In)
      if ctx.fontMissing then (img, false)
      else
        let ft := fit_text ctx.measure ctx.lineH text innerWidth.toNat innerHeight.toNat
        let yStart := y1In + max 0 ((innerHeight - (ft.2.2.2 : ℤ)).fdiv 2)
        (drawLoop ctx ft.1 (ft.2.2.1 : ℤ) x1In x2In innerWidth img yStart ft.2.1, true)

/-- One iteration of the extraction loop of replace_text (lines 85-152),
acting on the heap at the working reference: a missing box or translation
(line 94), an invalid bounding box (line 105) and a render failure each add
one failure; a render success adds one success.  The except at line 148
catches a PIL exception and also adds exactly one failure; the pure model
cannot raise, so that path is vacuous here.  render_bbox_px (lines 112-131)
is computed by the source and never used (see render_bbox_px_of and
chosen_rects); the erase (line 133) and the render (line 137) both receive
the padded text box. -/
def process_extraction (ctx : RenderCtx) (imgW imgH : ℕ) (work : ℕ)
    (st : Heap × ℕ × ℕ) (e : Extraction) : Heap × ℕ × ℕ :=
  match e.boundingBox with
  | none => (st.1, st.2.1, st.2.2 + 1)
  | some bb =>
    if e.english = [] then (st.1, st.2.1, st.2.2 + 1)
    else
      match normalize_to_pixels bb imgW imgH true (some TEXT_ERASE_PADDING) with
      | none => (st.1, st.2.1, st.2.2 + 1)
      | some textPx =>
        let heap2 := Function.update st.1 work (erase_text_simple (st.1 work) textPx)
        let rendered := render_text ctx (heap2 work) e.english textPx
        let heap3 := Function.update heap2 work rendered.1
        if rendered.2 then (heap3, st.2.1 + 1, st.2.2)
        else (heap3, st.2.1, st.2.2 + 1)

/-- replace_text (lines 46-158) on the heap model: the working image is a
fresh copy of the original (image.copy() at line 78, modelled as the fresh
reference orig + 1); the extractions are processed in order accumulating
success and failure counts; the result is (final heap, working reference,
successes, failures).  With no extractions a copy is still returned
(line 75). -/
def replace_text (ctx : RenderCtx) (heap : Heap) (orig : ℕ)
    (extractions : List Extraction) (imgW imgH : ℕ) : Heap × ℕ × ℕ × ℕ :=
  let work := orig + 1
  let heap0 := Function.update heap work (heap orig)
  if extractions = [] then (heap0, work, 0, 0)
  else
    let st := extractions.foldl (process_extraction ctx imgW imgH work) (heap0, 0, 0)
    (st.1, work, st.2.1, st.2.2)

lemma growLine_snd_suffix (f : List Word → Bool) (cur : List Word) :
    ∀ ws, (growLine f cur ws).2 <:+ ws := by
  intro ws
  induction ws generalizing cur with
  | nil => exact List.nil_suffix
  | cons w ws ih =>
    simp only [growLine]
    split
    · exact (ih (cur ++ [w])).trans (List.suffix_cons w ws)
    · exact List.suffix_refl _

lemma growLine_append (f : List Word → Bool) (cur : List Word) :
    ∀ ws, (growLine f cur ws).1 ++ (growLine f cur ws).2 = cur ++ ws := by
  intro ws
  induction ws generalizing cur with
  | nil => simp [growLine]
  | cons w ws ih =>
    simp only [growLine]
    split
    · rw [ih (cur ++ [w])]; simp
    · rfl

lemma growLine_fst_ne_nil (f : List Word → Bool) (cur : List Word) (hc : cur ≠ []) :
    ∀ ws, (growLine f cur ws).1 ≠ [] := by
  intro ws
  induction ws generalizing cur with
  | nil => exact hc
  | cons w ws ih =>
    simp only [growLine]
    split
    · exact ih (cur ++ [w]) (by simp)
    · exact hc

lemma wrapFold_eq (f : List Word → Bool) :
    ∀ ws lines cur, cur ≠ [] →
      (let st := ws.foldl (wrapStep f) (lines, cur)
       if st.2 = [] then st.1 else st.1 ++ [st.2]) =
      lines ++ ((growLine f cur ws).1 :: wrapSplit f (growLine f cur ws).2) := by
  intro ws
  induction ws with
  | nil =>
    intro lines cur hc
    simp [growLine, wrapSplit, hc]
  | cons w ws ih =>
    intro lines cur hc
    cases hf : f (cur ++ [w]) with
    | true =>
      have hstep : wrapStep f (lines, cur) w = (lines, cur ++ [w]) := by
        simp [wrapStep, hf]
      rw [List.foldl_cons, hstep, ih lines (cur ++ [w]) (by simp)]
      simp [growLine, hf]
    | false =>
      have hstep : wrapStep f (lines, cur) w = (lines ++ [cur], [w]) := by
        simp [wrapStep, hf, hc]
      rw [List.foldl_cons, hstep, ih (lines ++ [cur]) [w] (by simp)]
      rw [growLine]
      simp only [hf, Bool.false_eq_true, if_false]
      rw [wrapSplit]
      simp

lemma wrapGroups_eq_wrapSplit (f : List Word → Bool) (ws : List Word) :
    wrapGroups f ws = wrapSplit f ws := by
  cases ws with
  | nil => simp [wrapGroups, wrapSplit]
  | cons w ws =>
    have hstep : wrapStep f ([], []) w = ([], [w]) := by
      cases hf : f ([] ++ [w]) <;> simp [wrapStep, hf]
    unfold wrapGroups
    simp only [List.foldl_cons, hstep]
    rw [wrapFold_eq f ws [] [w] (by simp)]
    rw [wrapSplit]
    simp

lemma wrapSplit_flatten (f : List Word → Bool) :
    ∀ ws, (wrapSplit f ws).flatten = ws := by
  suffices h : ∀ n ws, ws.length ≤ n → (wrapSplit f ws).flatten = ws by
    exact fun ws => h ws.length ws le_rfl
  intro n
  induction n with
  | zero =>
    intro ws h
    have : ws = [] := List.length_eq_zero.mp (Nat.le_zero.mp h)
    subst this
    simp [wrapSplit]
  | succ n ih =>
    intro ws h
    cases ws with
    | nil => simp [wrapSplit]
    | cons w ws =>
      rw [wrapSplit]
      simp only [List.flatten_cons]
      have hlen : (growLine f [w] ws).2.length ≤ n := by
        have := (growLine_snd_suffix f [w] ws).length_le
        simp at h
        omega
      rw [ih _ hlen]
      rw [growLine_append f [w] ws]
      rfl

lemma wrapSplit_mem_ne_nil (f : List Word → Bool) :
    ∀ ws g, g ∈ wrapSplit f ws → g ≠ [] := by
  suffices h : ∀ n ws, ws.length ≤ n → ∀ g ∈ wrapSplit f ws, g ≠ [] by
    exact fun ws => h ws.length ws le_rfl
  intro n
  induction n with
  | zero =>
    intro ws h
    have : ws = [] := List.length_eq_zero.mp (Nat.le_zero.mp h)
    subst this
    simp [wrapSplit]
  | succ n ih =>
    intro ws h
    cases ws with
    | nil => simp [wrapSplit]
    | cons w ws =>
      rw [wrapSplit]
      intro g hg
      rcases List.mem_cons.mp hg with hgg | hgg
      · subst hgg; exact growLine_fst_ne_nil f [w] (by simp) ws
      · have hlen : (growLine f [w] ws).2.length ≤ n := by
          have := (growLine_snd_suffix f [w] ws).length_le
          simp at h
          omega
        exact ih _ hlen g hgg

lemma pySplit_mem_ne_nil : ∀ s, ∀ w ∈ pySplit s, w ≠ [] := by
  intro s
  induction s with
  | nil => simp [pySplit]
  | cons c cs ih =>
    intro w hw
    rw [pySplit] at hw
    split at hw
    · exact ih w hw
    · revert hw
      split
      · intro hw; simp at hw; subst hw; simp
      · rename_i w1 ws1 hps
        split
        · intro hw; simp at hw; subst hw; simp
        · split
          · intro hw
            rcases List.mem_cons.mp hw with h | h
            · subst h; simp
            · exact ih w (hps ▸ h)
          · intro hw
            rcases List.mem_cons.mp hw with h | h
            · subst h; simp
            · exact ih w (hps ▸ List.mem_cons_of_mem w1 h)

lemma pySplit_mem_no_space : ∀ s, ∀ w ∈ pySplit s, ∀ c ∈ w, isPySpace c = false := by
  intro s
  induction s with
  | nil => simp [pySplit]
  | cons c cs ih =>
    intro w hw
    rw [pySplit] at hw
    split at hw
    · exact ih w hw
    · rename_i hc
      have hcf : isPySpace c = false := by simpa using hc
      revert hw
      split
      · intro hw; simp at hw; subst hw
        intro x hx; simp at hx; subst hx; exact hcf
      · rename_i w1 ws1 hps
        split
        · intro hw; simp at hw; subst hw
          intro x hx; simp at hx; subst hx; exact hcf
        · split
          · intro hw
            rcases List.mem_cons.mp hw with h | h
            · subst h
              intro x hx; simp at hx; subst hx; exact hcf
            · exact ih w (hps ▸ h)
          · intro hw
            rcases List.mem_cons.mp hw with h | h
            · subst h
              intro x hx
              rcases List.mem_cons.mp hx with h2 | h2
              · subst h2; exact hcf
              · exact ih w1 (hps ▸ List.mem_cons_self w1 ws1) x h2
            · exact ih w (hps ▸ List.mem_cons_of_mem w1 h)

lemma pySplit_single_word (w : Word) (hne : w ≠ [])
    (hns : ∀ c ∈ w, isPySpace c = false) : pySplit w = [w] := by
  induction w with
  | nil => exact absurd rfl hne
  | cons c cs ih =>
    rw [pySplit]
    rw [hns c (List.mem_cons_self c cs)]
    simp only [Bool.false_eq_true, if_false]
    cases cs with
    | nil => rfl
    | cons d cs2 =>
      rw [ih (by simp) (fun x hx => hns x (List.mem_cons_of_mem c hx))]
      dsimp only
      rw [hns d (List.mem_cons_of_mem c (List.mem_cons_self d cs2))]
      rfl

lemma pySplit_word_space (w : Word) (rest : List Char) (hne : w ≠ [])
    (hns : ∀ c ∈ w, isPySpace c = false) :
    pySplit (w ++ ' ' :: rest) = w :: pySplit rest := by
  induction w with
  | nil => exact absurd rfl hne
  | cons c cs ih =>
    rw [List.cons_append, pySplit]
    rw [hns c (List.mem_cons_self c cs)]
    simp only [Bool.false_eq_true, if_false]
    cases cs with
    | nil =>
      have hsp : pySplit (' ' :: rest) = pySplit rest := by
        rw [pySplit]; simp [isPySpace]
      simp only [List.nil_append]
      rw [hsp]
      cases hr : pySplit rest with
      | nil => rfl
      | cons w1 ws1 =>
        dsimp only
        simp [isPySpace]
    | cons d cs2 =>
      rw [List.cons_append] at ih ⊢
      rw [ih (by simp) (fun x hx => hns x (List.mem_cons_of_mem c hx))]
      dsimp only
      rw [hns d (List.mem_cons_of_mem c (List.mem_cons_self d cs2))]
      rfl

lemma pySplit_joinSpace (g : List Word) (hne : g ≠ [])
    (hw : ∀ w ∈ g, w ≠ [] ∧ ∀ c ∈ w, isPySpace c = false) :
    pySplit (joinSpace g) = g := by
  induction g with
  | nil => exact absurd rfl hne
  | cons w g2 ih =>
    cases g2 with
    | nil =>
      show pySplit (joinSpace [w]) = [w]
      rw [joinSpace]
      exact pySplit_single_word w (hw w (by simp)).1 (hw w (by simp)).2
    | cons v g3 =>
      show pySplit (w ++ ' ' :: joinSpace (v :: g3)) = w :: v :: g3
      rw [pySplit_word_space w _ (hw w (by simp)).1 (hw w (by simp)).2]
      rw [ih (by simp) (fun x hx => hw x (List.mem_cons_of_mem w hx))]

/-- C5.  For every measurement function, width budget and input text, the words
of the lines returned by _wrap_text, concatenated in order, are exactly
text.split(): wrapping never drops, duplicates or reorders a word. -/
theorem wrap_text_preserves_words (measureF : List Char → Nat) (maxWidth : Nat)
    (text : List Char) :
    ((wrap_text measureF maxWidth text).map pySplit).flatten = pySplit text := by
  unfold wrap_text
  dsimp only
  rw [wrapGroups_eq_wrapSplit]
  set f := fun g => decide (measureF (joinSpace g) ≤ maxWidth) with hf
  cases hws : pySplit text with
  | nil =>
    simp [wrapSplit, hws]
  | cons w ws =>
    rw [← hws]
    have hflat : (wrapSplit f (pySplit text)).flatten = pySplit text :=
      wrapSplit_flatten f (pySplit text)
    have hnil : wrapSplit f (pySplit text) ≠ [] := by
      intro h
      rw [h] at hflat
      rw [hws] at hflat
      exact absurd hflat.symm (by simp)
    have hmap : (wrapSplit f (pySplit text)).map joinSpace ≠ [] := by
      simpa using hnil
    rw [if_neg hmap]
    rw [List.map_map]
    have hcongr : ∀ g ∈ wrapSplit f (pySplit text), (pySplit ∘ joinSpace) g = id g := by
      intro g hg
      have hgne : g ≠ [] := wrapSplit_mem_ne_nil f (pySplit text) g hg
      have hgw : ∀ x ∈ g, x ≠ [] ∧ ∀ c ∈ x, isPySpace c = false := by
        intro x hx
        have hxmem : x ∈ pySplit text := by
          rw [← hflat]
          exact List.mem_flatten.mpr ⟨g, hg, hx⟩
        exact ⟨pySplit_mem_ne_nil text x hxmem, pySplit_mem_no_space text x hxmem⟩
      simp only [Function.comp_apply, id]
      rw [pySplit_joinSpace g hgne hgw]
    rw [List.map_congr_left hcongr, List.map_id]
    exact hflat

/-- C4.  _normalize_to_pixels returns None exactly when x or y is outside
[0,1] or width or height is outside (0,1]; in particular x < 0, width ≤ 0 and
x + width > 2 (impossible for in-range components, hence any "wildly
exceeding" sum) are each rejected, and whenever a rect is returned the box
satisfied all the range conditions. -/
theorem normalize_rejects_iff (b : NormBox) (imgW imgH : ℕ) (pad : Bool) (padPx : Option ℤ) :
    (normalize_to_pixels b imgW imgH pad padPx = none ↔
      ¬(0 ≤ b.x ∧ b.x ≤ 1 ∧ 0 ≤ b.y ∧ b.y ≤ 1 ∧ 0 < b.w ∧ b.w ≤ 1 ∧ 0 < b.h ∧ b.h ≤ 1))
    ∧ (b.x < 0 → normalize_to_pixels b imgW imgH pad padPx = none)
    ∧ (b.w ≤ 0 → normalize_to_pixels b imgW imgH pad padPx = none)
    ∧ (2 < b.x + b.w → normalize_to_pixels b imgW imgH pad padPx = none) := by
  have hiff : normalize_to_pixels b imgW imgH pad padPx = none ↔
      ¬(0 ≤ b.x ∧ b.x ≤ 1 ∧ 0 ≤ b.y ∧ b.y ≤ 1 ∧ 0 < b.w ∧ b.w ≤ 1 ∧ 0 < b.h ∧ b.h ≤ 1) := by
    unfold normalize_to_pixels
    split
    case isTrue h => cases pad <;> simp [h]
    case isFalse h => simp [h]
  refine ⟨hiff, ?_, ?_, ?_⟩
  · intro hx
    exact hiff.mpr (fun hc => absurd hx (not_lt.mpr hc.1))
  · intro hw
    exact hiff.mpr (fun hc => absurd hw (not_le.mpr hc.2.2.2.2.1))
  · intro hxw
    refine hiff.mpr (fun hc => ?_)
    have h1 := hc.2.1
    have h2 := hc.2.2.2.2.2.1
    linarith

/-- Witness for C4: a box with negative x is rejected. -/
theorem normalize_rejects_iff_witness :
    normalize_to_pixels ⟨-(1/2), 0, 1/2, 1/2⟩ 100 100 true (some 0) = none :=
  (normalize_rejects_iff ⟨-(1/2), 0, 1/2, 1/2⟩ 100 100 true (some 0)).2.1 (by norm_num)

/-- Every floor is within one of the corresponding round. -/
lemma abs_floor_sub_round_le_one (q : ℚ) : |⌊q⌋ - round q| ≤ 1 := by
  rw [round_eq]
  have h1 : ⌊q⌋ ≤ ⌊q + 1/2⌋ := Int.floor_le_floor (by linarith)
  have h2 : ⌊q + 1/2⌋ ≤ ⌊q⌋ + 1 := by
    have : ⌊q + 1/2⌋ ≤ ⌊q + 1⌋ := Int.floor_le_floor (by linarith)
    have he : (⌊q + 1⌋ : ℤ) = ⌊q⌋ + 1 := by
      have := Int.floor_add_int q 1
      push_cast at this
      omega
    omega
  rw [abs_le]
  omega

/-- C3 counterexample: the box (0, 0, 1/256, 1/256) on a 100x100 image has
x, y in [0,1), width, height in (0,1], x+width ≤ 1 and y+height ≤ 1, yet
_normalize_to_pixels with zero padding returns the degenerate rect
(0, 0, 0, 0): x2 > x1 fails even though width > 0. -/
theorem normalize_degenerate_cex :
    normalize_to_pixels ⟨0, 0, 1/256, 1/256⟩ 100 100 true (some 0) =
      some ⟨0, 0, 0, 0⟩ ∧
    (0 : ℚ) < 1/256 ∧ (0 : ℚ) + 1/256 ≤ 1 ∧ ¬((0 : ℤ) < 0) := by
  refine ⟨?_, by norm_num, by norm_num, by simp⟩
  unfold normalize_to_pixels
  rw [if_pos (by norm_num)]
  norm_num

/-- C3 (amended).  With zero padding and a box with x, y in [0,1), width,
height in (0,1], x+width ≤ 1 and y+height ≤ 1, _normalize_to_pixels returns
exactly the truncated corners (⌊x·W⌋, ⌊y·H⌋, ⌊(x+width)·W⌋, ⌊(y+height)·H⌋),
each within 1 pixel of the corresponding round(·); the rect is non-degenerate
(x2 > x1 and y2 > y1) whenever the box spans at least one pixel in each axis
(width·W ≥ 1 and height·H ≥ 1) — a box narrower than one pixel can collapse
to x2 = x1, as the counterexample shows, so width > 0 alone does not
suffice. -/
theorem normalize_zero_pad_spec (b : NormBox) (imgW imgH : ℕ)
    (hx0 : 0 ≤ b.x) (hx1 : b.x < 1) (hy0 : 0 ≤ b.y) (hy1 : b.y < 1)
    (hw0 : 0 < b.w) (hw1 : b.w ≤ 1) (hh0 : 0 < b.h) (hh1 : b.h ≤ 1)
    (hxw : b.x + b.w ≤ 1) (hyh : b.y + b.h ≤ 1) :
    normalize_to_pixels b imgW imgH true (some 0) =
      some ⟨⌊b.x * imgW⌋, ⌊b.y * imgH⌋, ⌊(b.x + b.w) * imgW⌋, ⌊(b.y + b.h) * imgH⌋⟩ ∧
    |⌊b.x * imgW⌋ - round (b.x * imgW)| ≤ 1 ∧
    |⌊b.y * imgH⌋ - round (b.y * imgH)| ≤ 1 ∧
    |⌊(b.x + b.w) * imgW⌋ - round ((b.x + b.w) * imgW)| ≤ 1 ∧
    |⌊(b.y + b.h) * imgH⌋ - round ((b.y + b.h) * imgH)| ≤ 1 ∧
    (1 ≤ b.w * imgW → ⌊b.x * imgW⌋ < ⌊(b.x + b.w) * imgW⌋) ∧
    (1 ≤ b.h * imgH → ⌊b.y * imgH⌋ < ⌊(b.y + b.h) * imgH⌋) := by
  have hW0 : (0 : ℚ) ≤ (imgW : ℚ) := Nat.cast_nonneg _
  have hH0 : (0 : ℚ) ≤ (imgH : ℚ) := Nat.cast_nonneg _
  have hfx : (0 : ℤ) ≤ ⌊b.x * imgW⌋ := Int.floor_nonneg.mpr (mul_nonneg hx0 hW0)
  have hfy : (0 : ℤ) ≤ ⌊b.y * imgH⌋ := Int.floor_nonneg.mpr (mul_nonneg hy0 hH0)
  have hfx2 : ⌊(b.x + b.w) * imgW⌋ ≤ (imgW : ℤ) := by
    have h1 : (b.x + b.w) * imgW ≤ (imgW : ℚ) := by
      nlinarith
    calc ⌊(b.x + b.w) * imgW⌋ ≤ ⌊(imgW : ℚ)⌋ := Int.floor_le_floor h1
      _ = (imgW : ℤ) := Int.floor_natCast imgW
  have hfy2 : ⌊(b.y + b.h) * imgH⌋ ≤ (imgH : ℤ) := by
    have h1 : (b.y + b.h) * imgH ≤ (imgH : ℚ) := by
      nlinarith
    calc ⌊(b.y + b.h) * imgH⌋ ≤ ⌊(imgH : ℚ)⌋ := Int.floor_le_floor h1
      _ = (imgH : ℤ) := Int.floor_natCast imgH
  refine ⟨?_, abs_floor_sub_round_le_one _, abs_floor_sub_round_le_one _,
    abs_floor_sub_round_le_one _, abs_floor_sub_round_le_one _, ?_, ?_⟩
  · unfold normalize_to_pixels
    rw [if_pos ⟨hx0, hx1.le, hy0, hy1.le, hw0, hw1, hh0, hh1⟩]
    dsimp only
    simp only [if_true, Option.some.injEq, Rect.mk.injEq]
    refine ⟨?_, ?_, ?_, ?_⟩ <;> omega
  · intro hge
    have h1 : b.x * imgW + 1 ≤ (b.x + b.w) * imgW := by nlinarith
    calc ⌊b.x * imgW⌋ < ⌊b.x * imgW⌋ + 1 := by omega
      _ = ⌊b.x * imgW + 1⌋ := by rw [Int.floor_add_one]
      _ ≤ ⌊(b.x + b.w) * imgW⌋ := Int.floor_le_floor h1
  · intro hge
    have h1 : b.y * imgH + 1 ≤ (b.y + b.h) * imgH := by nlinarith
    calc ⌊b.y * imgH⌋ < ⌊b.y * imgH⌋ + 1 := by omega
      _ = ⌊b.y * imgH + 1⌋ := by rw [Int.floor_add_one]
      _ ≤ ⌊(b.y + b.h) * imgH⌋ := Int.floor_le_floor h1

/-- Witness for C3 (amended): the end-to-end example box (0.1, 0.1, 0.2, 0.2)
on an 800x600 page maps to the rect (80, 60, 240, 180). -/
theorem normalize_zero_pad_spec_witness :
    normalize_to_pixels ⟨1/10, 1/10, 1/5, 1/5⟩ 800 600 true (some 0) =
      some ⟨80, 60, 240, 180⟩ := by
  have h := normalize_zero_pad_spec ⟨1/10, 1/10, 1/5, 1/5⟩ 800 600
    (by norm_num) (by norm_num) (by norm_num) (by norm_num) (by norm_num)
    (by norm_num) (by norm_num) (by norm_num) (by norm_num) (by norm_num)
  rw [h.1]
  norm_num

/-- C1 (code bug).  On a 1000x1000 page with text box (0.4, 0.4, 0.1, 0.1)
and bubble box (0.3, 0.3, 0.3, 0.3): the normalized-and-expanded bubble
rectangle is (187, 187, 713, 713) and its area 526*526 = 276676 passes the
110% test against the text box area 112*112 = 12544 (int(12544 * 1.1) =
13798), so the rectangle-selection policy requires the bubble rectangle for
both erase and render; yet the rectangles actually passed to
_erase_text_simple (line 133) and _render_text (line 137) are both the padded
text box (394, 394, 506, 506) — render_bbox_px is computed and discarded,
contradicting the comments at lines 112, 119 and 128. -/
theorem replace_text_ignores_bubble_rect :
    chosen_rects ⟨2/5, 2/5, 1/10, 1/10⟩ (some ⟨3/10, 3/10, 3/10, 3/10⟩) 1000 1000 =
      some (⟨187, 187, 713, 713⟩, ⟨394, 394, 506, 506⟩, ⟨394, 394, 506, 506⟩) ∧
    ((12544 : ℤ) * 11).fdiv 10 ≤ 526 * 526 ∧
    (⟨394, 394, 506, 506⟩ : Rect) ≠ ⟨187, 187, 713, 713⟩ := by
  have h1 : normalize_to_pixels ⟨2/5, 2/5, 1/10, 1/10⟩ 1000 1000 true
      (some TEXT_ERASE_PADDING) = some ⟨394, 394, 506, 506⟩ := by
    unfold normalize_to_pixels TEXT_ERASE_PADDING
    rw [if_pos (by norm_num)]
    norm_num
  have h2 : normalize_to_pixels ⟨3/10, 3/10, 3/10, 3/10⟩ 1000 1000 true
      (some BBOX_PADDING) = some ⟨295, 295, 605, 605⟩ := by
    unfold normalize_to_pixels BBOX_PADDING
    rw [if_pos (by norm_num)]
    norm_num
  have h3 : expand_bbox ⟨295, 295, 605, 605⟩ 1000 1000 RENDER_BOX_PADDING_PCT
      BBOX_PADDING = ⟨187, 187, 713, 713⟩ := by
    unfold expand_bbox RENDER_BOX_PADDING_PCT BBOX_PADDING
    norm_num
  refine ⟨?_, by decide, by decide⟩
  unfold chosen_rects
  rw [h1]
  dsimp only
  unfold render_bbox_px_of
  dsimp only
  rw [h2]
  dsimp only
  rw [h3]
  decide

/-- C8.  Flat-fill erase is idempotent — erasing the same rectangle twice is
pixel-identical to erasing once — and total: on a zero- or negative-area
rectangle it is a silent no-op that returns the raster unchanged and never
fails. -/
theorem erase_text_simple_idempotent_noop (img : Raster) (bbox : Rect) :
    erase_text_simple (erase_text_simple img bbox) bbox = erase_text_simple img bbox ∧
    (bbox.x2 ≤ bbox.x1 ∨ bbox.y2 ≤ bbox.y1 → erase_text_simple img bbox = img) := by
  constructor
  · unfold erase_text_simple
    split
    · rfl
    · funext p
      by_cases hp : bbox.x1 ≤ p.1 ∧ p.1 ≤ bbox.x2 ∧ bbox.y1 ≤ p.2 ∧ p.2 ≤ bbox.y2
      · simp [hp]
      · simp [hp]
  · intro h
    unfold erase_text_simple
    rw [if_pos h]

/-- Witness for C8 at a concrete raster: double erase of (3,3)-(9,9) equals a
single erase, and the degenerate rectangle (5,5)-(3,7) is a no-op. -/
theorem erase_text_simple_idempotent_noop_witness :
    erase_text_simple (erase_text_simple (fun _ => (0, 0, 0)) ⟨3, 3, 9, 9⟩) ⟨3, 3, 9, 9⟩ =
      erase_text_simple (fun _ => (0, 0, 0)) ⟨3, 3, 9, 9⟩ ∧
    erase_text_simple (fun _ => (0, 0, 0)) ⟨5, 5, 3, 7⟩ = fun _ => (0, 0, 0) :=
  ⟨(erase_text_simple_idempotent_noop (fun _ => (0, 0, 0)) ⟨3, 3, 9, 9⟩).1,
   (erase_text_simple_idempotent_noop (fun _ => (0, 0, 0)) ⟨5, 5, 3, 7⟩).2
     (Or.inl (by norm_num))⟩

/-- C7 counterexample: for the box x1 = 0, x2 = 10 (inner_width = 10) and a
line measured at width 14, the drawn x position is -4 < x1 = 0: the
right-edge clamp wins and the line starts left of x1, so both clamps do not
hold simultaneously for a line wider than the box. -/
theorem render_x_pos_cex :
    render_x_pos 0 10 (max 1 (10 - 0)) 14 = -4 ∧ (-4 : ℤ) < 0 := by
  constructor
  · decide
  · decide

/-- C7 (amended).  The drawn x position is the centered position
x1 + (inner_width - line_width) // 2 clamped below by x1 and then clamped so
the right edge never passes x2: x + line_width ≤ x2 always holds, and
x1 ≤ x also holds whenever line_width ≤ x2 - x1; for a line wider than the
box the right edge stays at x2 but the line starts left of x1 (see the
counterexample). -/
theorem render_x_pos_clamps (x1In x2In lineWidth : ℤ) :
    render_x_pos x1In x2In (max 1 (x2In - x1In)) lineWidth + lineWidth ≤ x2In ∧
    (lineWidth ≤ x2In - x1In →
      x1In ≤ render_x_pos x1In x2In (max 1 (x2In - x1In)) lineWidth) := by
  unfold render_x_pos
  generalize (max 1 (x2In - x1In) - lineWidth).fdiv 2 = q
  constructor
  · omega
  · intro h
    omega

/-- Witness for C7 (amended): a 4-pixel line in the box x1 = 2, x2 = 10
satisfies both clamps. -/
theorem render_x_pos_clamps_witness :
    render_x_pos 2 10 (max 1 (10 - 2)) 4 + 4 ≤ 10 ∧
    (2 : ℤ) ≤ render_x_pos 2 10 (max 1 (10 - 2)) 4 :=
  ⟨(render_x_pos_clamps 2 10 4).1, (render_x_pos_clamps 2 10 4).2 (by norm_num)⟩

lemma searchLoop_no_accept (accept : ℕ → Bool) :
    ∀ n low high best, high + 1 - low ≤ n →
      (∀ s, low ≤ s → s ≤ high → accept s = false) →
      searchLoop accept low high best = best := by
  intro n
  induction n with
  | zero =>
    intro low high best hn hno
    rw [searchLoop]
    rw [if_neg (by omega)]
  | succ n ih =>
    intro low high best hn hno
    rw [searchLoop]
    split
    case isTrue hlh =>
      have hmid1 : low ≤ (low + high) / 2 := by omega
      have hmid2 : (low + high) / 2 ≤ high := by omega
      dsimp only
      rw [hno _ hmid1 hmid2]
      simp only [Bool.false_eq_true, if_false]
      split
      · rfl
      · exact ih low ((low + high) / 2 - 1) best (by omega)
          (fun s hs1 hs2 => hno s hs1 (by omega))
    case isFalse hlh => rfl

/-- C6.  _fit_text always returns a result: when the binary search accepts no
candidate size in [MIN_FONT_SIZE, MAX_FONT_SIZE], the returned tuple is the
smallest size MIN_FONT_SIZE together with that size's wrap result, line
height and total height — a best-effort fallback, never "no result". -/
theorem fit_text_fallback (measure : ℕ → List Char → ℕ) (lineH : ℕ → ℕ)
    (text : List Char) (maxWidth maxHeight : ℕ)
    (hno : ∀ s, s < MAX_FONT_SIZE + 1 → MIN_FONT_SIZE ≤ s →
      fits_size measure lineH maxWidth maxHeight text s = false) :
    fit_text measure lineH text maxWidth maxHeight =
      (MIN_FONT_SIZE, wrap_text (measure MIN_FONT_SIZE) maxWidth text,
       lineH MIN_FONT_SIZE,
       (wrap_text (measure MIN_FONT_SIZE) maxWidth text).length *
         lineH MIN_FONT_SIZE) := by
  unfold fit_text
  rw [searchLoop_no_accept (fits_size measure lineH maxWidth maxHeight text)
    (MAX_FONT_SIZE + 1 - MIN_FONT_SIZE) MIN_FONT_SIZE MAX_FONT_SIZE MIN_FONT_SIZE
    le_rfl (fun s hs1 hs2 => hno s (by omega) hs1)]

/-- Witness for C6: with a constant oversized measurement no size fits a
5-pixel box, and fit_text returns the MIN_FONT_SIZE fallback tuple. -/
theorem fit_text_fallback_witness :
    fit_text (fun _ _ => 1000) (fun s => s) ['a'] 5 5 = (8, [['a']], 8, 8) := by
  have h := fit_text_fallback (fun _ _ => 1000) (fun s => s) ['a'] 5 5 (by decide)
  rw [h]
  rfl

lemma process_extraction_preserves (ctx : RenderCtx) (imgW imgH : ℕ) (orig : ℕ)
    (st : Heap × ℕ × ℕ) (e : Extraction) :
    (process_extraction ctx imgW imgH (orig + 1) st e).1 orig = st.1 orig := by
  unfold process_extraction
  split
  · rfl
  · split
    · rfl
    · split
      · rfl
      · dsimp only
        split
        all_goals
          dsimp only
          rw [Function.update_noteq (by omega), Function.update_noteq (by omega)]

lemma foldl_process_preserves (ctx : RenderCtx) (imgW imgH : ℕ) (orig : ℕ) :
    ∀ (exts : List Extraction) (st : Heap × ℕ × ℕ),
      ((exts.foldl (process_extraction ctx imgW imgH (orig + 1)) st).1) orig =
        st.1 orig := by
  intro exts
  induction exts with
  | nil => intro st; rfl
  | cons e exts ih =>
    intro st
    rw [List.foldl_cons, ih]
    exact process_extraction_preserves ctx imgW imgH orig st e

/-- C9.  replace_text never mutates the original page image: all erase and
draw operations are applied to the fresh working copy (reference orig + 1),
so the raster at the original reference is identical before and after the
call, for every extraction list — empty included — and every outcome of the
per-extraction branches. -/
theorem replace_text_preserves_original (ctx : RenderCtx) (heap : Heap) (orig : ℕ)
    (extractions : List Extraction) (imgW imgH : ℕ) :
    (replace_text ctx heap orig extractions imgW imgH).1 orig = heap orig := by
  unfold replace_text
  dsimp only
  split
  · exact Function.update_noteq (by omega) _ _
  · rw [foldl_process_preserves]
    exact Function.update_noteq (by omega) _ _

lemma process_extraction_count (ctx : RenderCtx) (imgW imgH : ℕ) (work : ℕ)
    (st : Heap × ℕ × ℕ) (e : Extraction) :
    (process_extraction ctx imgW imgH work st e).2.1 +
      (process_extraction ctx imgW imgH work st e).2.2 = st.2.1 + st.2.2 + 1 := by
  unfold process_extraction
  split
  · rfl
  · split
    · rfl
    · split
      · rfl
      · dsimp only
        split
        · dsimp only; omega
        · dsimp only; omega

lemma foldl_process_count (ctx : RenderCtx) (imgW imgH : ℕ) (work : ℕ) :
    ∀ (exts : List Extraction) (st : Heap × ℕ × ℕ),
      (exts.foldl (process_extraction ctx imgW imgH work) st).2.1 +
        (exts.foldl (process_extraction ctx imgW imgH work) st).2.2 =
        st.2.1 + st.2.2 + exts.length := by
  intro exts
  induction exts with
  | nil => intro st; simp
  | cons e exts ih =>
    intro st
    rw [List.foldl_cons, ih]
    rw [process_extraction_count]
    simp
    omega

/-- C10.  replace_text counts every extraction exactly once: successes plus
failures equals the length of the extraction list, whichever path each
extraction takes (validation rejection, invalid geometry, render failure or
success). -/
theorem replace_text_counts (ctx : RenderCtx) (heap : Heap) (orig : ℕ)
    (extractions : List Extraction) (imgW imgH : ℕ) :
    (replace_text ctx heap orig extractions imgW imgH).2.2.1 +
      (replace_text ctx heap orig extractions imgW imgH).2.2.2 =
      extractions.length := by
  unfold replace_text
  dsimp only
  split
  case isTrue h => rw [h]; rfl
  case isFalse h =>
    have hc := foldl_process_count ctx imgW imgH (orig + 1) extractions
      (Function.update heap (orig + 1) (heap orig), 0, 0)
    dsimp only at hc ⊢
    omega

lemma suffix_to_contig {α : Type} {g h : List α} (hgh : g <:+ h) : g <:+: h := by
  obtain ⟨u, hu⟩ := hgh
  exact ⟨u, [], by simp [hu]⟩

lemma growLine_rest_suffix_mono (P : List Word → Bool)
    (hP : ∀ g h, g <:+ h → P h = true → P g = true) :
    ∀ (ws cur cur2 : List Word), cur2 <:+ cur →
      (growLine P cur2 ws).2 <:+ (growLine P cur ws).2 := by
  intro ws
  induction ws with
  | nil => intro cur cur2 _; exact List.suffix_refl _
  | cons w ws ih =>
    intro cur cur2 hsuf
    cases hf : P (cur ++ [w]) with
    | true =>
      have hsuf2 : cur2 ++ [w] <:+ cur ++ [w] := by
        obtain ⟨u, hu⟩ := hsuf
        exact ⟨u, by rw [← List.append_assoc, hu]⟩
      have hf2 : P (cur2 ++ [w]) = true := hP _ _ hsuf2 hf
      have h1 : growLine P cur (w :: ws) = growLine P (cur ++ [w]) ws := by
        simp [growLine, hf]
      have h2 : growLine P cur2 (w :: ws) = growLine P (cur2 ++ [w]) ws := by
        simp [growLine, hf2]
      rw [h1, h2]
      exact ih (cur ++ [w]) (cur2 ++ [w]) hsuf2
    | false =>
      have h1 : growLine P cur (w :: ws) = (cur, w :: ws) := by
        simp [growLine, hf]
      rw [h1]
      exact growLine_snd_suffix P cur2 (w :: ws)

lemma growLine_start_suffix (P : List Word → Bool)
    (hP : ∀ g h, g <:+ h → P h = true → P g = true) :
    ∀ (ws cur : List Word) (x2 : Word) (t2 : List Word),
      (x2 :: t2) <:+ ws →
      (growLine P [x2] t2).2 <:+ (growLine P cur ws).2 := by
  intro ws
  induction ws with
  | nil =>
    intro cur x2 t2 h
    rw [List.suffix_nil] at h
    exact absurd h (by simp)
  | cons w ws ih =>
    intro cur x2 t2 hsuf
    rcases List.suffix_cons_iff.mp hsuf with heq | hsuf2
    · injection heq with he1 he2
      subst he1
      subst he2
      cases hf : P (cur ++ [x2]) with
      | true =>
        have h1 : growLine P cur (x2 :: t2) = growLine P (cur ++ [x2]) t2 := by
          simp [growLine, hf]
        rw [h1]
        exact growLine_rest_suffix_mono P hP t2 (cur ++ [x2]) [x2] ⟨cur, rfl⟩
      | false =>
        have h1 : growLine P cur (x2 :: t2) = (cur, x2 :: t2) := by
          simp [growLine, hf]
        rw [h1]
        exact (growLine_snd_suffix P [x2] t2).trans (List.suffix_cons x2 t2)
    · cases hf : P (cur ++ [w]) with
      | true =>
        have h1 : growLine P cur (w :: ws) = growLine P (cur ++ [w]) ws := by
          simp [growLine, hf]
        rw [h1]
        exact ih (cur ++ [w]) x2 t2 hsuf2
      | false =>
        have h1 : growLine P cur (w :: ws) = (cur, w :: ws) := by
          simp [growLine, hf]
        rw [h1]
        have ht : t2 <:+ ws := by
          obtain ⟨u, hu⟩ := hsuf2
          refine ⟨u ++ [x2], ?_⟩
          rw [List.append_assoc]
          simpa using hu
        exact ((growLine_snd_suffix P [x2] t2).trans ht).trans (List.suffix_cons w ws)

lemma wrapSplit_length_suffix (P : List Word → Bool)
    (hP : ∀ g h, g <:+ h → P h = true → P g = true) :
    ∀ n ws ws2, ws.length ≤ n → ws2 <:+ ws →
      (wrapSplit P ws2).length ≤ (wrapSplit P ws).length := by
  intro n
  induction n with
  | zero =>
    intro ws ws2 hn hsuf
    have hws : ws = [] := List.length_eq_zero.mp (Nat.le_zero.mp hn)
    subst hws
    rw [List.suffix_nil] at hsuf
    subst hsuf
    exact le_rfl
  | succ n ih =>
    intro ws ws2 hn hsuf
    cases ws with
    | nil =>
      rw [List.suffix_nil] at hsuf
      subst hsuf
      exact le_rfl
    | cons w ws =>
      rcases List.suffix_cons_iff.mp hsuf with heq | hsuf2
      · subst heq
        exact le_rfl
      · cases ws2 with
        | nil => simp [wrapSplit]
        | cons x2 t2 =>
          rw [wrapSplit, wrapSplit]
          simp only [List.length_cons]
          have hgen := growLine_start_suffix P hP ws [w] x2 t2 hsuf2
          have hfuel : (growLine P [w] ws).2.length ≤ n := by
            have := (growLine_snd_suffix P [w] ws).length_le
            simp only [List.length_cons] at hn
            omega
          have hrec := ih (growLine P [w] ws).2 (growLine P [x2] t2).2 hfuel hgen
          omega

lemma growLine_rest_imp (P Q : List Word → Bool)
    (himp : ∀ g, Q g = true → P g = true) :
    ∀ ws cur, (growLine P cur ws).2 <:+ (growLine Q cur ws).2 := by
  intro ws
  induction ws with
  | nil => intro _; exact List.suffix_refl _
  | cons w ws ih =>
    intro cur
    cases hq : Q (cur ++ [w]) with
    | true =>
      have hp : P (cur ++ [w]) = true := himp _ hq
      have h1 : growLine P cur (w :: ws) = growLine P (cur ++ [w]) ws := by
        simp [growLine, hp]
      have h2 : growLine Q cur (w :: ws) = growLine Q (cur ++ [w]) ws := by
        simp [growLine, hq]
      rw [h1, h2]
      exact ih (cur ++ [w])
    | false =>
      have h2 : growLine Q cur (w :: ws) = (cur, w :: ws) := by
        simp [growLine, hq]
      rw [h2]
      exact growLine_snd_suffix P cur (w :: ws)

lemma wrapSplit_length_mono (P Q : List Word → Bool)
    (hP : ∀ g h, g <:+ h → P h = true → P g = true)
    (himp : ∀ g, Q g = true → P g = true) :
    ∀ n ws, ws.length ≤ n → (wrapSplit P ws).length ≤ (wrapSplit Q ws).length := by
  intro n
  induction n with
  | zero =>
    intro ws hn
    have hws : ws = [] := List.length_eq_zero.mp (Nat.le_zero.mp hn)
    subst hws
    simp [wrapSplit]
  | succ n ih =>
    intro ws hn
    cases ws with
    | nil => simp [wrapSplit]
    | cons w ws =>
      rw [wrapSplit, wrapSplit]
      simp only [List.length_cons]
      have hpre := growLine_rest_imp P Q himp ws [w]
      have hfuelQ : (growLine Q [w] ws).2.length ≤ n := by
        have := (growLine_snd_suffix Q [w] ws).length_le
        simp only [List.length_cons] at hn
        omega
      have h1 := wrapSplit_length_suffix P hP n (growLine Q [w] ws).2
        (growLine P [w] ws).2 hfuelQ hpre
      have h2 := ih (growLine Q [w] ws).2 hfuelQ
      omega

lemma growLine_fst_sat (P : List Word → Bool) :
    ∀ ws cur, P cur = true → P (growLine P cur ws).1 = true := by
  intro ws
  induction ws with
  | nil => intro cur h; exact h
  | cons w ws ih =>
    intro cur h
    cases hf : P (cur ++ [w]) with
    | true =>
      have h1 : growLine P cur (w :: ws) = growLine P (cur ++ [w]) ws := by
        simp [growLine, hf]
      rw [h1]
      exact ih _ hf
    | false =>
      have h1 : growLine P cur (w :: ws) = (cur, w :: ws) := by
        simp [growLine, hf]
      rw [h1]
      exact h

lemma wrapSplit_groups_sat (P : List Word → Bool) :
    ∀ n ws, ws.length ≤ n → (∀ w ∈ ws, P [w] = true) →
      ∀ g ∈ wrapSplit P ws, P g = true := by
  intro n
  induction n with
  | zero =>
    intro ws hn _ g hg
    have hws : ws = [] := List.length_eq_zero.mp (Nat.le_zero.mp hn)
    subst hws
    simp [wrapSplit] at hg
  | succ n ih =>
    intro ws hn hws g hg
    cases ws with
    | nil => simp [wrapSplit] at hg
    | cons w ws =>
      rw [wrapSplit] at hg
      rcases List.mem_cons.mp hg with h | h
      · subst h
        exact growLine_fst_sat P ws [w] (hws w (List.mem_cons_self w ws))
      · have hfuel : (growLine P [w] ws).2.length ≤ n := by
          have := (growLine_snd_suffix P [w] ws).length_le
          simp only [List.length_cons] at hn
          omega
        refine ih (growLine P [w] ws).2 hfuel ?_ g h
        intro x hx
        exact hws x (List.mem_cons_of_mem w ((growLine_snd_suffix P [w] ws).mem hx))

lemma wrapSplit_ne_nil (P : List Word → Bool) (ws : List Word) (h : ws ≠ []) :
    wrapSplit P ws ≠ [] := by
  cases ws with
  | nil => exact absurd rfl h
  | cons w ws =>
    rw [wrapSplit]
    simp

lemma wrap_text_eq_groups (measureF : List Char → ℕ) (maxW : ℕ) (text : List Char)
    (hne : pySplit text ≠ []) :
    wrap_text measureF maxW text =
      (wrapSplit (fun g => decide (measureF (joinSpace g) ≤ maxW)) (pySplit text)).map
        joinSpace := by
  unfold wrap_text
  dsimp only
  rw [wrapGroups_eq_wrapSplit]
  rw [if_neg]
  simpa using wrapSplit_ne_nil _ (pySplit text) hne

lemma wrap_text_nil_words (measureF : List Char → ℕ) (maxW : ℕ) (text : List Char)
    (hnil : pySplit text = []) :
    wrap_text measureF maxW text = [text] := by
  unfold wrap_text
  dsimp only
  rw [wrapGroups_eq_wrapSplit, hnil]
  simp [wrapSplit]

lemma wrap_all_width_iff (measureF : List Char → ℕ) (maxW : ℕ) (text : List Char)
    (hsub : ∀ g h, g <:+: h → measureF (joinSpace g) ≤ measureF (joinSpace h))
    (hne : pySplit text ≠ []) :
    ((wrap_text measureF maxW text).all (fun l => decide (measureF l ≤ maxW)) = true) ↔
      ∀ w ∈ pySplit text, measureF w ≤ maxW := by
  rw [wrap_text_eq_groups measureF maxW text hne]
  rw [List.all_eq_true]
  constructor
  · intro hall w hw
    obtain ⟨g, hg, hwg⟩ := List.mem_flatten.mp
      ((wrapSplit_flatten (fun g => decide (measureF (joinSpace g) ≤ maxW))
        (pySplit text)).symm ▸ hw)
    have hline := hall (joinSpace g) (List.mem_map_of_mem joinSpace hg)
    simp only [decide_eq_true_eq] at hline
    obtain ⟨u, v, huv⟩ := List.append_of_mem hwg
    have h1 : measureF (joinSpace [w]) ≤ measureF (joinSpace g) := by
      refine hsub [w] g ⟨u, v, ?_⟩
      rw [huv]
      simp
    exact h1.trans hline
  · intro hws l hl
    obtain ⟨g, hg, rfl⟩ := List.mem_map.mp hl
    have hsat := wrapSplit_groups_sat (fun g => decide (measureF (joinSpace g) ≤ maxW))
      (pySplit text).length (pySplit text) le_rfl
      (fun w hw => by simpa using hws w hw) g hg
    simpa using hsat

lemma fits_size_eq (measure : ℕ → List Char → ℕ) (lineH : ℕ → ℕ)
    (maxW maxH : ℕ) (text : List Char) (s : ℕ) :
    fits_size measure lineH maxW maxH text s = true ↔
      ((wrap_text (measure s) maxW text).all
        (fun l => decide (measure s l ≤ maxW)) = true) ∧
      (wrap_text (measure s) maxW text).length * lineH s ≤ maxH * 6 / 5 := by
  unfold fits_size
  dsimp only
  rw [Bool.and_eq_true, decide_eq_true_eq]

lemma fits_size_mono_size (measure : ℕ → List Char → ℕ) (lineH : ℕ → ℕ)
    (maxW maxH : ℕ) (text : List Char)
    (hA1 : ∀ s t l, s ≤ t → measure s l ≤ measure t l)
    (hA2 : ∀ s g h, g <:+: h → measure s (joinSpace g) ≤ measure s (joinSpace h))
    (hA3 : ∀ s t, s ≤ t → lineH s ≤ lineH t)
    (s t : ℕ) (hst : s ≤ t)
    (ht : fits_size measure lineH maxW maxH text t = true) :
    fits_size measure lineH maxW maxH text s = true := by
  rw [fits_size_eq] at ht ⊢
  obtain ⟨htw, hth⟩ := ht
  by_cases hnil : pySplit text = []
  · rw [wrap_text_nil_words _ _ _ hnil] at htw hth ⊢
    constructor
    · simp only [List.all_cons, List.all_nil, Bool.and_true, decide_eq_true_eq] at htw ⊢
      exact (hA1 s t text hst).trans htw
    · simp only [List.length_cons, List.length_nil] at hth ⊢
      calc 1 * lineH s ≤ 1 * lineH t := by simpa using hA3 s t hst
        _ ≤ maxH * 6 / 5 := hth
  · have hwidth_t := (wrap_all_width_iff (measure t) maxW text (hA2 t) hnil).mp htw
    have hwidth_s : ∀ w ∈ pySplit text, measure s w ≤ maxW :=
      fun w hw => (hA1 s t w hst).trans (hwidth_t w hw)
    constructor
    · exact (wrap_all_width_iff (measure s) maxW text (hA2 s) hnil).mpr hwidth_s
    · rw [wrap_text_eq_groups _ _ _ hnil] at hth ⊢
      rw [List.length_map] at hth ⊢
      have hcount : (wrapSplit (fun g => decide (measure s (joinSpace g) ≤ maxW))
            (pySplit text)).length ≤
          (wrapSplit (fun g => decide (measure t (joinSpace g) ≤ maxW))
            (pySplit text)).length := by
        refine wrapSplit_length_mono _ _ ?_ ?_ (pySplit text).length (pySplit text) le_rfl
        · intro g h hgh hh
          simp only [decide_eq_true_eq] at hh ⊢
          exact (hA2 s g h (suffix_to_contig hgh)).trans hh
        · intro g hq
          simp only [decide_eq_true_eq] at hq ⊢
          exact (hA1 s t _ hst).trans hq
      calc (wrapSplit (fun g => decide (measure s (joinSpace g) ≤ maxW))
            (pySplit text)).length * lineH s
          ≤ (wrapSplit (fun g => decide (measure t (joinSpace g) ≤ maxW))
            (pySplit text)).length * lineH t := Nat.mul_le_mul hcount (hA3 s t hst)
        _ ≤ maxH * 6 / 5 := hth

lemma fits_size_mono_width (measure : ℕ → List Char → ℕ) (lineH : ℕ → ℕ)
    (maxH : ℕ) (text : List Char)
    (hA2 : ∀ s g h, g <:+: h → measure s (joinSpace g) ≤ measure s (joinSpace h))
    (s W1 W2 : ℕ) (hW : W1 ≤ W2)
    (h1 : fits_size measure lineH W1 maxH text s = true) :
    fits_size measure lineH W2 maxH text s = true := by
  rw [fits_size_eq] at h1 ⊢
  obtain ⟨h1w, h1h⟩ := h1
  by_cases hnil : pySplit text = []
  · rw [wrap_text_nil_words _ _ _ hnil] at h1w h1h ⊢
    constructor
    · simp only [List.all_cons, List.all_nil, Bool.and_true, decide_eq_true_eq] at h1w ⊢
      exact h1w.trans hW
    · exact h1h
  · have hwidth1 := (wrap_all_width_iff (measure s) W1 text (hA2 s) hnil).mp h1w
    have hwidth2 : ∀ w ∈ pySplit text, measure s w ≤ W2 :=
      fun w hw => (hwidth1 w hw).trans hW
    constructor
    · exact (wrap_all_width_iff (measure s) W2 text (hA2 s) hnil).mpr hwidth2
    · rw [wrap_text_eq_groups _ _ _ hnil] at h1h ⊢
      rw [List.length_map] at h1h ⊢
      have hcount : (wrapSplit (fun g => decide (measure s (joinSpace g) ≤ W2))
            (pySplit text)).length ≤
          (wrapSplit (fun g => decide (measure s (joinSpace g) ≤ W1))
            (pySplit text)).length := by
        refine wrapSplit_length_mono _ _ ?_ ?_ (pySplit text).length (pySplit text) le_rfl
        · intro g h hgh hh
          simp only [decide_eq_true_eq] at hh ⊢
          exact (hA2 s g h (suffix_to_contig hgh)).trans hh
        · intro g hq
          simp only [decide_eq_true_eq] at hq ⊢
          exact hq.trans hW
      exact (Nat.mul_le_mul_right _ hcount).trans h1h

lemma searchLoop_spec (accept : ℕ → Bool) (lo0 hi0 : ℕ) (hlo : 1 ≤ lo0)
    (hdc : ∀ s t, lo0 ≤ s → s ≤ t → t ≤ hi0 → accept t = true → accept s = true) :
    ∀ n low high best, high + 1 - low ≤ n →
      lo0 ≤ low → high ≤ hi0 → lo0 ≤ best → best ≤ hi0 →
      (∀ s, lo0 ≤ s → s ≤ hi0 → accept s = true → s ≤ high) →
      (∀ s, lo0 ≤ s → s ≤ hi0 → accept s = true → s < low → s ≤ best) →
      (best = lo0 ∨ accept best = true) →
      (lo0 ≤ searchLoop accept low high best ∧ searchLoop accept low high best ≤ hi0) ∧
      (∀ s, lo0 ≤ s → s ≤ hi0 → accept s = true →
        s ≤ searchLoop accept low high best) ∧
      (searchLoop accept low high best = lo0 ∨
        accept (searchLoop accept low high best) = true) := by
  intro n
  induction n with
  | zero =>
    intro low high best hn h2 h3 h4 h5 hIa hIc hIe
    have hlh : ¬ low ≤ high := by omega
    rw [searchLoop, if_neg hlh]
    refine ⟨⟨h4, h5⟩, ?_, hIe⟩
    intro s hs1 hs2 hacc
    have hsh := hIa s hs1 hs2 hacc
    exact hIc s hs1 hs2 hacc (by omega)
  | succ n ih =>
    intro low high best hn h2 h3 h4 h5 hIa hIc hIe
    rw [searchLoop]
    split
    case isTrue hlh =>
      dsimp only
      have hm1 : low ≤ (low + high) / 2 := by omega
      have hm2 : (low + high) / 2 ≤ high := by omega
      cases hacc : accept ((low + high) / 2) with
      | true =>
        rw [if_pos rfl]
        refine ih ((low + high) / 2 + 1) high ((low + high) / 2) (by omega) (by omega)
          h3 (by omega) (by omega) hIa ?_ (Or.inr hacc)
        intro s hs1 hs2 ha hs3
        omega
      | false =>
        rw [if_neg (by simp)]
        rw [if_neg (by omega)]
        refine ih low ((low + high) / 2 - 1) best (by omega) h2 (by omega) h4 h5 ?_ hIc hIe
        intro s hs1 hs2 ha
        by_cases hsm : (low + high) / 2 ≤ s
        · exact absurd (hdc ((low + high) / 2) s (by omega) hsm hs2 ha) (by simp [hacc])
        · omega
    case isFalse hlh =>
      refine ⟨⟨h4, h5⟩, ?_, hIe⟩
      intro s hs1 hs2 hacc
      have hsh := hIa s hs1 hs2 hacc
      exact hIc s hs1 hs2 hacc (by omega)

/-- C2.  Under monotone font metrics — the measured width of any string is
monotone in the size, any contiguous part of a joined line measures at most
the line, and the line height is monotone in the size (the monotonic-search
assumption the binary search of _fit_text relies on) — the size returned by
_fit_text is the largest size in [MIN_FONT_SIZE, MAX_FONT_SIZE] whose wrap
has every line within max_width and total height within int(max_height * 1.2)
(whenever any such size exists); and shrinking max_width never increases the
returned size. -/
theorem fit_text_best_size (measure : ℕ → List Char → ℕ) (lineH : ℕ → ℕ)
    (text : List Char) (W Wsmall H : ℕ)
    (hA1 : ∀ s t l, s ≤ t → measure s l ≤ measure t l)
    (hA2 : ∀ s g h, g <:+: h → measure s (joinSpace g) ≤ measure s (joinSpace h))
    (hA3 : ∀ s t, s ≤ t → lineH s ≤ lineH t)
    (hex : ∃ s, MIN_FONT_SIZE ≤ s ∧ s ≤ MAX_FONT_SIZE ∧
      fits_size measure lineH W H text s = true) :
    (fits_size measure lineH W H text (fit_text measure lineH text W H).1 = true ∧
     ∀ s, MIN_FONT_SIZE ≤ s → s ≤ MAX_FONT_SIZE →
       fits_size measure lineH W H text s = true →
       s ≤ (fit_text measure lineH text W H).1) ∧
    (Wsmall ≤ W →
      (fit_text measure lineH text Wsmall H).1 ≤ (fit_text measure lineH text W H).1) := by
  obtain ⟨⟨hb1, hb2⟩, hub, hbest⟩ :=
    searchLoop_spec (fits_size measure lineH W H text) MIN_FONT_SIZE MAX_FONT_SIZE
      (by norm_num [MIN_FONT_SIZE])
      (fun s t hs hst ht hacc =>
        fits_size_mono_size measure lineH W H text hA1 hA2 hA3 s t hst hacc)
      (MAX_FONT_SIZE + 1 - MIN_FONT_SIZE) MIN_FONT_SIZE MAX_FONT_SIZE MIN_FONT_SIZE
      le_rfl le_rfl le_rfl le_rfl (by decide)
      (fun s _ hs2 _ => hs2)
      (fun s hs1 _ _ hlt => by omega)
      (Or.inl rfl)
  obtain ⟨s0, hs01, hs02, hs03⟩ := hex
  have hfits : fits_size measure lineH W H text
      (searchLoop (fits_size measure lineH W H text) MIN_FONT_SIZE MAX_FONT_SIZE
        MIN_FONT_SIZE) = true := by
    rcases hbest with hmin | hacc
    · have hs0r := hub s0 hs01 hs02 hs03
      have hs0 : s0 = MIN_FONT_SIZE := le_antisymm (hmin ▸ hs0r) hs01
      rw [hmin, ← hs0]
      exact hs03
    · exact hacc
  refine ⟨⟨hfits, hub⟩, ?_⟩
  intro hWW
  obtain ⟨⟨hb1s, hb2s⟩, hubs, hbests⟩ :=
    searchLoop_spec (fits_size measure lineH Wsmall H text) MIN_FONT_SIZE MAX_FONT_SIZE
      (by norm_num [MIN_FONT_SIZE])
      (fun s t hs hst ht hacc =>
        fits_size_mono_size measure lineH Wsmall H text hA1 hA2 hA3 s t hst hacc)
      (MAX_FONT_SIZE + 1 - MIN_FONT_SIZE) MIN_FONT_SIZE MAX_FONT_SIZE MIN_FONT_SIZE
      le_rfl le_rfl le_rfl le_rfl (by decide)
      (fun s _ hs2 _ => hs2)
      (fun s hs1 _ _ hlt => by omega)
      (Or.inl rfl)
  rcases hbests with hmin | haccs
  · show (fit_text measure lineH text Wsmall H).1 ≤ (fit_text measure lineH text W H).1
    have he1 : (fit_text measure lineH text Wsmall H).1 =
        searchLoop (fits_size measure lineH Wsmall H text) MIN_FONT_SIZE MAX_FONT_SIZE
          MIN_FONT_SIZE := rfl
    rw [he1, hmin]
    exact hb1
  · have hW2 : fits_size measure lineH W H text
        (searchLoop (fits_size measure lineH Wsmall H text) MIN_FONT_SIZE MAX_FONT_SIZE
          MIN_FONT_SIZE) = true :=
      fits_size_mono_width measure lineH H text hA2 _ Wsmall W hWW haccs
    exact hub _ hb1s hb2s hW2

lemma joinSpace_append (a b : List Word) (ha : a ≠ []) (hb : b ≠ []) :
    joinSpace (a ++ b) = joinSpace a ++ ' ' :: joinSpace b := by
  induction a with
  | nil => exact absurd rfl ha
  | cons x a ih =>
    cases a with
    | nil =>
      cases b with
      | nil => exact absurd rfl hb
      | cons y b => rfl
    | cons z a2 =>
      show x ++ ' ' :: joinSpace ((z :: a2) ++ b) =
        (x ++ ' ' :: joinSpace (z :: a2)) ++ ' ' :: joinSpace b
      rw [ih (by simp)]
      simp

lemma joinSpace_length_sub (g h : List Word) (hgh : g <:+: h) :
    (joinSpace g).length ≤ (joinSpace h).length := by
  obtain ⟨u, v, huv⟩ := hgh
  subst huv
  by_cases hg : g = []
  · subst hg
    simp [joinSpace]
  · by_cases hu : u = []
    · by_cases hv : v = []
      · subst hu; subst hv; simp
      · subst hu
        rw [List.nil_append, joinSpace_append g v hg hv]
        simp
    · by_cases hv : v = []
      · subst hv
        rw [List.append_nil, joinSpace_append u g hu hg]
        simp only [List.length_append, List.length_cons]
        omega
      · rw [List.append_assoc, joinSpace_append u (g ++ v) hu (by simp [hg]),
          joinSpace_append g v hg hv]
        simp only [List.length_append, List.length_cons]
        omega

/-- Witness for C2: the linear measurement size * length with identity line
height satisfies the monotone-metric hypotheses, and on the text "hi" with
budgets 600x600 versus width 300 the conclusions follow. -/
theorem fit_text_best_size_witness :
    fits_size (fun s l => s * l.length) (fun s => s) 600 600 ['h', 'i']
      (fit_text (fun s l => s * l.length) (fun s => s) ['h', 'i'] 600 600).1 = true ∧
    (fit_text (fun s l => s * l.length) (fun s => s) ['h', 'i'] 300 600).1 ≤
      (fit_text (fun s l => s * l.length) (fun s => s) ['h', 'i'] 600 600).1 := by
  have h := fit_text_best_size (fun s l => s * l.length) (fun s => s) ['h', 'i'] 600 300 600
    (fun s t l hst => Nat.mul_le_mul_right _ hst)
    (fun s g h2 hgh => Nat.mul_le_mul_left _ (joinSpace_length_sub g h2 hgh))
    (fun s t hst => hst)
    ⟨8, le_rfl, by decide, by decide⟩
  exact ⟨h.1.1, h.2 (by norm_num)⟩
